import Mathlib

/-!
Verification of the `orderedmap` Go package (jimschubert/ordered-map).

The Go `OrderedMap[K, V]` holds two structures kept in sync:
  * `items : map[K]*KeyValuePair[K, V]` — the lookup index, modelled here as an
    association list of `(key, value)` pairs (a Go map cannot hold duplicate
    keys; the model's operations likewise never create a duplicate key);
  * `order : list.List[*KeyValuePair[K, V]]` — a doubly linked list of the same
    pairs, modelled here as a Lean `List (K × V)`.

In Go the index and the list share `*KeyValuePair` pointers, so mutating a
pair through the index is visible through the list.  The shallow embedding
makes that sharing explicit: every operation updates both fields exactly where
the Go code touches the corresponding structure.

The linked-list package `internal/list` is not part of the sources available
here (it is an out-of-scope collaborator, specified only by its interface
contract), so its primitives are modelled from the spec's sequence-primitive
contract.  A list element handle is identified by the key of the pair it
holds; this is justified by the key-uniqueness invariant `Inv`, which is
proved to hold for every map reachable through the public API.
-/

namespace orderedmap

/-- One stored pair; mirrors Go's `KeyValuePair[K, V]` (the `element`
back-reference is represented by the pair's position in `order`). -/
structure OrderedMap (K V : Type) where
  items : List (K × V)
  order : List (K × V)
deriving DecidableEq

/-- The two error kinds of the package: `KeyNotFoundError` and
`DuplicateKeyValueError`. -/
inductive MapError (K V : Type) where
  | keyNotFound (key : K)
  | duplicateKeyValue (key : K) (value : V)
deriving DecidableEq

variable {K V : Type} [DecidableEq K]

/-- Go map read `o.items[key]`: the value stored at `key`, if present. -/
def lookupKey : List (K × V) → K → Option V
  | [], _ => none
  | p :: rest, k => if p.1 = k then some p.2 else lookupKey rest k

/-- In-place mutation of the pair stored at `key` (Go: `existing.Value = value`,
visible through both `items` and `order` because the pair is shared). -/
def updateValue (l : List (K × V)) (k : K) (v : V) : List (K × V) :=
  l.map (fun p => if p.1 = k then (k, v) else p)

/-- Go map write `o.items[key] = &pair`: overwrite if present, else add. -/
def mapInsert (l : List (K × V)) (k : K) (v : V) : List (K × V) :=
  match lookupKey l k with
  | some _ => updateValue l k v
  | none => l ++ [(k, v)]

/-- Modelled from the spec: the sequence primitive's `remove(position)` from
`internal/list` (not in the available sources).  The position handle is
resolved by key; under the key-uniqueness invariant the first (and only)
element holding that key is the addressed node. -/
def eraseKey : List (K × V) → K → List (K × V)
  | [], _ => []
  | p :: rest, k => if p.1 = k then rest else p :: eraseKey rest k

/-- Modelled from the spec: splicing a node immediately after the node
holding key `mark`, as done by `internal/list`'s `moveAfter`. -/
def insertAfterKey : List (K × V) → K → (K × V) → List (K × V)
  | [], _, _ => []
  | p :: rest, mark, e =>
    if p.1 = mark then p :: e :: rest else p :: insertAfterKey rest mark e

/-- Modelled from the spec: splicing a node immediately before the node
holding key `mark`, as done by `internal/list`'s `moveBefore`. -/
def insertBeforeKey : List (K × V) → K → (K × V) → List (K × V)
  | [], _, _ => []
  | p :: rest, mark, e =>
    if p.1 = mark then e :: p :: rest else p :: insertBeforeKey rest mark e

/-- Modelled from the spec: `internal/list`'s `MoveAfter(e, mark)`; moving an
element after itself is a no-op, otherwise the element is detached and
re-spliced immediately after `mark`. -/
def listMoveAfter (l : List (K × V)) (k : K) (v : V) (mark : K) : List (K × V) :=
  if k = mark then l else insertAfterKey (eraseKey l k) mark (k, v)

/-- Modelled from the spec: `internal/list`'s `MoveBefore(e, mark)`. -/
def listMoveBefore (l : List (K × V)) (k : K) (v : V) (mark : K) : List (K × V) :=
  if k = mark then l else insertBeforeKey (eraseKey l k) mark (k, v)

/-- The keys of an association list / of the order sequence, front to back. -/
def keys (l : List (K × V)) : List K := l.map Prod.fst

/-- `New` / `Init`: the empty ordered map. -/
def New : OrderedMap K V := ⟨[], []⟩

/-- Go `insertKeyValuePair`: create the pair, push it at the back of `order`,
store it in `items`. -/
def insertKeyValuePair (o : OrderedMap K V) (key : K) (value : V) :
    OrderedMap K V :=
  { items := mapInsert o.items key value, order := o.order ++ [(key, value)] }

/-- Go `Set`: overwrite in place if the key exists, else insert at the back. -/
def Set (o : OrderedMap K V) (key : K) (value : V) : OrderedMap K V :=
  match lookupKey o.items key with
  | some _ =>
    { items := updateValue o.items key value,
      order := updateValue o.order key value }
  | none => insertKeyValuePair o key value

/-- Go `Get`: the value stored at `key` (`(*V, bool)` becomes `Option V`). -/
def Get (o : OrderedMap K V) (key : K) : Option V :=
  lookupKey o.items key

/-- Go `GetOrDefault`. -/
def GetOrDefault (o : OrderedMap K V) (key : K) (defaultValue : V) : V :=
  (Get o key).getD defaultValue

/-- Go `Remove`: returns (removed pair or absent-marker, new state); on an
absent key the state is returned untouched. -/
def Remove (o : OrderedMap K V) (key : K) :
    Option (K × V) × OrderedMap K V :=
  match lookupKey o.items key with
  | some v =>
    (some (key, v),
      { items := eraseKey o.items key, order := eraseKey o.order key })
  | none => (none, o)

/-- Go `First`: the front pair of `order`, or the absent-marker. -/
def First (o : OrderedMap K V) : Option (K × V) := o.order.head?

/-- Go `Last`: the back pair of `order`, or the absent-marker. -/
def Last (o : OrderedMap K V) : Option (K × V) := o.order.getLast?

/-- Go `Iterator`: a cursor positioned at the front of `order`; the cursor
state is the list of not-yet-yielded pairs (`pos == nil` is the empty list). -/
def Iterator (o : OrderedMap K V) : List (K × V) := o.order

/-- Go `Iterator.Next`: yield the pair under the cursor and advance, or
yield the absent-marker once exhausted. -/
def Next : List (K × V) → Option (K × V) × List (K × V)
  | [] => (none, [])
  | p :: rest => (some p, rest)

/-- Iterating `Next` `n` more times after a first call: `NextN 0` is the first
call, `NextN (n+1)` advances past one call and continues. -/
def NextN : Nat → List (K × V) → Option (K × V) × List (K × V)
  | 0, s => Next s
  | n + 1, s => NextN n (Next s).2

/-- The pairs produced by calling `Next` until it yields the absent-marker. -/
def drain : List (K × V) → List (K × V)
  | [] => []
  | p :: rest => p :: drain rest

/-- Go `Keys`: walk the iterator, collecting each yielded pair's key. -/
def Keys (o : OrderedMap K V) : List K := keys (drain (Iterator o))

/-- Go `MoveToFront`: relocate the existing entry to the front of `order`,
or fail with `KeyNotFound` when the key is absent. -/
def MoveToFront (o : OrderedMap K V) (key : K) :
    Except (MapError K V) (OrderedMap K V) :=
  match lookupKey o.items key with
  | some v => .ok { o with order := (key, v) :: eraseKey o.order key }
  | none => .error (.keyNotFound key)

/-- Go `MoveToBack`. -/
def MoveToBack (o : OrderedMap K V) (key : K) :
    Except (MapError K V) (OrderedMap K V) :=
  match lookupKey o.items key with
  | some v => .ok { o with order := eraseKey o.order key ++ [(key, v)] }
  | none => .error (.keyNotFound key)

/-- Go `MoveAfter`: both keys must exist (`key` checked first); then the
entry at `key` is relocated immediately after the entry at `after`. -/
def MoveAfter (o : OrderedMap K V) (key after : K) :
    Except (MapError K V) (OrderedMap K V) :=
  match lookupKey o.items key with
  | some v =>
    match lookupKey o.items after with
    | some _ => .ok { o with order := listMoveAfter o.order key v after }
    | none => .error (.keyNotFound after)
  | none => .error (.keyNotFound key)

/-- Go `MoveBefore`. -/
def MoveBefore (o : OrderedMap K V) (key before : K) :
    Except (MapError K V) (OrderedMap K V) :=
  match lookupKey o.items key with
  | some v =>
    match lookupKey o.items before with
    | some _ => .ok { o with order := listMoveBefore o.order key v before }
    | none => .error (.keyNotFound before)
  | none => .error (.keyNotFound key)

/-- Go `InsertAfter`.  Note the translation keeps the source's error choices
verbatim: when the mark `after` is absent the code returns
`keyNotFound(key)` — the key being inserted, not the absent mark. -/
def InsertAfter (o : OrderedMap K V) (key : K) (value : V) (after : K) :
    Except (MapError K V) (OrderedMap K V) :=
  match lookupKey o.items after with
  | some markVal =>
    match lookupKey o.items key with
    | some existingVal => .error (.duplicateKeyValue key existingVal)
    | none =>
      if key = after then .error (.duplicateKeyValue after markVal)
      else
        .ok { items := mapInsert o.items key value,
              order := listMoveAfter (o.order ++ [(key, value)]) key value after }
  | none => .error (.keyNotFound key)

/-- Go `InsertBefore`; same error choices as the source, including
`keyNotFound(key)` when the mark `before` is absent. -/
def InsertBefore (o : OrderedMap K V) (key : K) (value : V) (before : K) :
    Except (MapError K V) (OrderedMap K V) :=
  match lookupKey o.items before with
  | some markVal =>
    match lookupKey o.items key with
    | some existingVal => .error (.duplicateKeyValue key existingVal)
    | none =>
      if key = before then .error (.duplicateKeyValue before markVal)
      else
        .ok { items := mapInsert o.items key value,
              order := listMoveBefore (o.order ++ [(key, value)]) key value before }
  | none => .error (.keyNotFound key)

/-- Go iterator lockstep walk of `Equal`: compare keys with `!=` and values
with `reflect.DeepEqual` (structural equality) position by position. -/
def equalWalk [DecidableEq V] : List (K × V) → List (K × V) → Bool
  | [], [] => true
  | [], _ :: _ => false
  | _ :: _, [] => false
  | p :: ps, q :: qs =>
    decide (p.1 = q.1) && decide (p.2 = q.2) && equalWalk ps qs

/-- Go `Equal` over two possibly-nil map pointers (`Option`).  The result
`none` models the run-time panic: after the one-sided nil checks the code
evaluates `x.order.Len()`, which dereferences a nil `x` when both arguments
are nil. -/
def Equal [DecidableEq V] (x y : Option (OrderedMap K V)) : Option Bool :=
  match x, y with
  | none, some _ => some false
  | some _, none => some false
  | none, none => none
  | some a, some b =>
    if a.order.length ≠ b.order.length then some false
    else some (equalWalk a.order b.order)

instance {E A : Type} [DecidableEq E] [DecidableEq A] : DecidableEq (Except E A) := by
  intro x y
  cases x <;> cases y
  case error.error a b =>
    exact if h : a = b then .isTrue (by rw [h]) else .isFalse (by simp [h])
  case ok.ok a b =>
    exact if h : a = b then .isTrue (by rw [h]) else .isFalse (by simp [h])
  case error.ok a b => exact .isFalse (by simp)
  case ok.error a b => exact .isFalse (by simp)

/-- The public mutating operations, as one step alphabet for whole-history
statements. -/
inductive Op (K V : Type) where
  | set (key : K) (value : V)
  | remove (key : K)
  | moveToFront (key : K)
  | moveToBack (key : K)
  | moveAfter (key mark : K)
  | moveBefore (key mark : K)
  | insertAfter (key : K) (value : V) (mark : K)
  | insertBefore (key : K) (value : V) (mark : K)

/-- The state after a fallible call: Go methods mutate the receiver only on
success, so a rejected call leaves the previous state. -/
def recover (o : OrderedMap K V) :
    Except (MapError K V) (OrderedMap K V) → OrderedMap K V
  | .ok o2 => o2
  | .error _ => o

/-- The map state after one public operation. -/
def applyOp (o : OrderedMap K V) : Op K V → OrderedMap K V
  | .set k v => Set o k v
  | .remove k => (Remove o k).2
  | .moveToFront k => recover o (MoveToFront o k)
  | .moveToBack k => recover o (MoveToBack o k)
  | .moveAfter k m => recover o (MoveAfter o k m)
  | .moveBefore k m => recover o (MoveBefore o k m)
  | .insertAfter k v m => recover o (InsertAfter o k v m)
  | .insertBefore k v m => recover o (InsertBefore o k v m)

/-- The map state after a whole history of public operations. -/
def applyOps (o : OrderedMap K V) (ops : List (Op K V)) : OrderedMap K V :=
  ops.foldl applyOp o

/-- The consistency invariant: the index holds exactly the pairs of the
order sequence (pointer sharing makes them the same pairs in Go, hence a
permutation here), and the index has no duplicate key. -/
def Inv (o : OrderedMap K V) : Prop :=
  o.items.Perm o.order ∧ (keys o.items).Nodup

instance [DecidableEq V] (o : OrderedMap K V) : Decidable (Inv o) := by
  unfold Inv
  infer_instance

/-! ### Basic lemmas about the Go-map model (`lookupKey`, `updateValue`) -/

theorem lookupKey_eq_none {l : List (K × V)} {k : K} :
    lookupKey l k = none ↔ k ∉ keys l := by
  induction l with
  | nil => simp [lookupKey, keys]
  | cons p rest ih =>
    by_cases h : p.1 = k
    · simp [lookupKey, h, keys]
    · simp [lookupKey, h, keys, ih, Ne.symm h]

theorem mem_of_lookupKey_eq_some {l : List (K × V)} {k : K} {v : V}
    (h : lookupKey l k = some v) : (k, v) ∈ l := by
  induction l with
  | nil => simp [lookupKey] at h
  | cons p rest ih =>
    by_cases hp : p.1 = k
    · simp only [lookupKey, hp, if_true, Option.some.injEq] at h
      subst h
      subst hp
      exact List.mem_cons_self _ _
    · simp only [lookupKey, hp, if_false] at h
      exact List.mem_cons_of_mem _ (ih h)

theorem lookupKey_eq_some_of_mem {l : List (K × V)} {k : K} {v : V}
    (hnd : (keys l).Nodup) (hm : (k, v) ∈ l) : lookupKey l k = some v := by
  induction l with
  | nil => simp at hm
  | cons p rest ih =>
    simp only [keys, List.map_cons, List.nodup_cons] at hnd
    rcases List.mem_cons.mp hm with hm | hm
    · subst hm
      simp [lookupKey]
    · have hne : p.1 ≠ k := by
        intro hc
        exact hnd.1 (hc ▸ (List.mem_map.mpr ⟨(k, v), hm, rfl⟩))
      simpa [lookupKey, hne] using ih hnd.2 hm

theorem keys_updateValue (l : List (K × V)) (k : K) (v : V) :
    keys (updateValue l k v) = keys l := by
  induction l with
  | nil => rfl
  | cons p rest ih =>
    by_cases h : p.1 = k <;>
      simp [keys, updateValue, h] at ih ⊢ <;> simpa [h] using ih

theorem lookupKey_updateValue_self {l : List (K × V)} {k : K} (v : V)
    (h : (lookupKey l k).isSome) : lookupKey (updateValue l k v) k = some v := by
  induction l with
  | nil => simp [lookupKey] at h
  | cons p rest ih =>
    by_cases hp : p.1 = k
    · simp [updateValue, lookupKey, hp]
    · simp only [lookupKey, hp, if_false] at h
      simpa [updateValue, lookupKey, hp] using ih h

theorem lookupKey_updateValue_ne {l : List (K × V)} {k k2 : K} (v : V)
    (h : k2 ≠ k) : lookupKey (updateValue l k v) k2 = lookupKey l k2 := by
  induction l with
  | nil => rfl
  | cons p rest ih =>
    simp only [updateValue, List.map_cons] at ih ⊢
    by_cases hp : p.1 = k
    · subst hp
      simp [lookupKey, Ne.symm h, ih]
    · by_cases hp2 : p.1 = k2
      · subst hp2
        simp [lookupKey, hp]
      · simp [lookupKey, hp, hp2, ih]

/-! ### Lemmas about the modelled sequence primitives -/

theorem eraseKey_sublist (l : List (K × V)) (k : K) : (eraseKey l k).Sublist l := by
  induction l with
  | nil => exact List.Sublist.refl _
  | cons p rest ih =>
    by_cases h : p.1 = k
    · simp [eraseKey, h]
    · simpa [eraseKey, h] using List.Sublist.cons₂ p ih

theorem eraseKey_eq_of_not_mem {l : List (K × V)} {k : K}
    (h : k ∉ keys l) : eraseKey l k = l := by
  induction l with
  | nil => rfl
  | cons p rest ih =>
    simp only [keys, List.map_cons, List.mem_cons, not_or] at h
    simp [eraseKey, Ne.symm h.1, ih h.2]

theorem eraseKey_append_not_mem {l : List (K × V)} {k : K} (v : V)
    (h : k ∉ keys l) : eraseKey (l ++ [(k, v)]) k = l := by
  induction l with
  | nil => simp [eraseKey]
  | cons p rest ih =>
    simp only [keys, List.map_cons, List.mem_cons, not_or] at h
    simp [eraseKey, Ne.symm h.1, ih h.2]

theorem perm_cons_eraseKey {l : List (K × V)} {k : K} {v : V}
    (hnd : (keys l).Nodup) (hm : (k, v) ∈ l) :
    l.Perm ((k, v) :: eraseKey l k) := by
  induction l with
  | nil => simp at hm
  | cons p rest ih =>
    simp only [keys, List.map_cons, List.nodup_cons] at hnd
    rcases List.mem_cons.mp hm with hm | hm
    · subst hm
      simp [eraseKey]
    · have hne : p.1 ≠ k := by
        intro hc
        exact hnd.1 (hc ▸ (List.mem_map.mpr ⟨(k, v), hm, rfl⟩))
      have h1 : (p :: rest).Perm (p :: (k, v) :: eraseKey rest k) :=
        List.Perm.cons p (ih hnd.2 hm)
      have h2 : (p :: (k, v) :: eraseKey rest k).Perm
          ((k, v) :: p :: eraseKey rest k) := List.Perm.swap _ _ _
      have h3 : (k, v) :: p :: eraseKey rest k
          = (k, v) :: eraseKey (p :: rest) k := by simp [eraseKey, hne]
      exact h3 ▸ (h1.trans h2)

theorem mem_keys_eraseKey_of_ne {l : List (K × V)} {k k2 : K}
    (hm : k2 ∈ keys l) (hne : k2 ≠ k) : k2 ∈ keys (eraseKey l k) := by
  induction l with
  | nil => simp [keys] at hm
  | cons p rest ih =>
    simp only [keys, List.map_cons, List.mem_cons] at hm
    by_cases hp : p.1 = k
    · rcases hm with hm | hm
      · exact absurd (hm.trans hp) hne
      · simp only [eraseKey, hp, if_true]
        exact hm
    · rcases hm with hm | hm
      · simp [eraseKey, hp, keys, hm]
      · simp only [eraseKey, hp, if_false, keys, List.map_cons, List.mem_cons]
        exact Or.inr (ih hm)

theorem insertAfterKey_perm {l : List (K × V)} {mark : K} (e : K × V)
    (h : mark ∈ keys l) : (insertAfterKey l mark e).Perm (e :: l) := by
  induction l with
  | nil => simp [keys] at h
  | cons p rest ih =>
    by_cases hp : p.1 = mark
    · simpa [insertAfterKey, hp] using List.Perm.swap e p rest
    · have hm : mark ∈ keys rest := by
        simpa [keys, Ne.symm hp] using h
      have step : (p :: insertAfterKey rest mark e).Perm (e :: p :: rest) :=
        (List.Perm.cons p (ih hm)).trans (List.Perm.swap _ _ _)
      simpa [insertAfterKey, hp] using step

theorem insertBeforeKey_perm {l : List (K × V)} {mark : K} (e : K × V)
    (h : mark ∈ keys l) : (insertBeforeKey l mark e).Perm (e :: l) := by
  induction l with
  | nil => simp [keys] at h
  | cons p rest ih =>
    by_cases hp : p.1 = mark
    · simp [insertBeforeKey, hp]
    · have hm : mark ∈ keys rest := by
        simpa [keys, Ne.symm hp] using h
      have step : (p :: insertBeforeKey rest mark e).Perm (e :: p :: rest) :=
        (List.Perm.cons p (ih hm)).trans (List.Perm.swap _ _ _)
      simpa [insertBeforeKey, hp] using step

/-! ### The invariant is preserved by every public operation -/

theorem Inv_New : Inv (New : OrderedMap K V) :=
  ⟨List.Perm.refl _, List.nodup_nil⟩

theorem keys_perm {o : OrderedMap K V} (h : Inv o) :
    (keys o.items).Perm (keys o.order) := h.1.map Prod.fst

theorem order_keys_nodup {o : OrderedMap K V} (h : Inv o) :
    (keys o.order).Nodup := (keys_perm h).nodup_iff.mp h.2

theorem mem_order_of_lookup {o : OrderedMap K V} {k : K} {v : V}
    (h : Inv o) (hl : lookupKey o.items k = some v) : (k, v) ∈ o.order :=
  h.1.mem_iff.mp (mem_of_lookupKey_eq_some hl)

theorem lookup_of_mem_order {o : OrderedMap K V} {k : K} {v : V}
    (h : Inv o) (hm : (k, v) ∈ o.order) : lookupKey o.items k = some v :=
  lookupKey_eq_some_of_mem h.2 (h.1.mem_iff.mpr hm)

theorem mem_keys_order_of_lookup {o : OrderedMap K V} {k : K} {v : V}
    (h : Inv o) (hl : lookupKey o.items k = some v) : k ∈ keys o.order :=
  List.mem_map.mpr ⟨(k, v), mem_order_of_lookup h hl, rfl⟩

theorem Inv_insertKeyValuePair {o : OrderedMap K V} {k : K} (v : V)
    (h : Inv o) (hk : lookupKey o.items k = none) :
    Inv (insertKeyValuePair o k v) := by
  have hk' : k ∉ keys o.items := lookupKey_eq_none.mp hk
  have hmap : mapInsert o.items k v = o.items ++ [(k, v)] := by
    simp [mapInsert, hk]
  constructor
  · show (mapInsert o.items k v).Perm (o.order ++ [(k, v)])
    rw [hmap]
    exact h.1.append (List.Perm.refl _)
  · show (keys (mapInsert o.items k v)).Nodup
    rw [hmap]
    have hkeys : keys (o.items ++ [(k, v)]) = keys o.items ++ [k] := by
      simp [keys]
    rw [hkeys]
    have hperm : (keys o.items ++ [k]).Perm (k :: keys o.items) :=
      List.perm_append_singleton _ _
    exact hperm.nodup_iff.mpr (List.nodup_cons.mpr ⟨hk', h.2⟩)

theorem Inv_Set (o : OrderedMap K V) (k : K) (v : V) (h : Inv o) :
    Inv (Set o k v) := by
  cases hl : lookupKey o.items k with
  | some v0 =>
    simp only [Set, hl]
    exact ⟨h.1.map _, by rw [show keys (updateValue o.items k v) = keys o.items
      from keys_updateValue o.items k v]; exact h.2⟩
  | none =>
    simp only [Set, hl]
    exact Inv_insertKeyValuePair v h hl

theorem Inv_Remove (o : OrderedMap K V) (k : K) (h : Inv o) :
    Inv (Remove o k).2 := by
  cases hl : lookupKey o.items k with
  | some v =>
    simp only [Remove, hl]
    have hmi : (k, v) ∈ o.items := mem_of_lookupKey_eq_some hl
    have hmo : (k, v) ∈ o.order := mem_order_of_lookup h hl
    have p1 := perm_cons_eraseKey h.2 hmi
    have p2 := perm_cons_eraseKey (order_keys_nodup h) hmo
    constructor
    · exact (p1.symm.trans (h.1.trans p2)).cons_inv
    · exact h.2.sublist (List.Sublist.map Prod.fst (eraseKey_sublist _ _))
  | none =>
    simp only [Remove, hl]
    exact h

theorem Inv_MoveToFront (o : OrderedMap K V) (k : K) (h : Inv o) :
    Inv (recover o (MoveToFront o k)) := by
  cases hl : lookupKey o.items k with
  | some v =>
    simp only [MoveToFront, hl, recover]
    have hmo : (k, v) ∈ o.order := mem_order_of_lookup h hl
    exact ⟨h.1.trans (perm_cons_eraseKey (order_keys_nodup h) hmo), h.2⟩
  | none =>
    simp only [MoveToFront, hl, recover]
    exact h

theorem Inv_MoveToBack (o : OrderedMap K V) (k : K) (h : Inv o) :
    Inv (recover o (MoveToBack o k)) := by
  cases hl : lookupKey o.items k with
  | some v =>
    simp only [MoveToBack, hl, recover]
    have hmo : (k, v) ∈ o.order := mem_order_of_lookup h hl
    have p2 : o.order.Perm ((k, v) :: eraseKey o.order k) :=
      perm_cons_eraseKey (order_keys_nodup h) hmo
    have p3 : (eraseKey o.order k ++ [(k, v)]).Perm ((k, v) :: eraseKey o.order k) :=
      List.perm_append_singleton _ _
    exact ⟨h.1.trans (p2.trans p3.symm), h.2⟩
  | none =>
    simp only [MoveToBack, hl, recover]
    exact h

theorem listMoveAfter_perm {o : OrderedMap K V} {k mark : K} {v : V}
    (h : Inv o) (hk : lookupKey o.items k = some v)
    (hmark : mark ∈ keys o.order) :
    (listMoveAfter o.order k v mark).Perm o.order := by
  by_cases hkm : k = mark
  · simp [listMoveAfter, hkm]
  · have hmo : (k, v) ∈ o.order := mem_order_of_lookup h hk
    have hmark2 : mark ∈ keys (eraseKey o.order k) :=
      mem_keys_eraseKey_of_ne hmark (fun hc => hkm hc.symm)
    have p1 : (insertAfterKey (eraseKey o.order k) mark (k, v)).Perm
        ((k, v) :: eraseKey o.order k) := insertAfterKey_perm _ hmark2
    have p2 : o.order.Perm ((k, v) :: eraseKey o.order k) :=
      perm_cons_eraseKey (order_keys_nodup h) hmo
    simpa [listMoveAfter, hkm] using p1.trans p2.symm

theorem listMoveBefore_perm {o : OrderedMap K V} {k mark : K} {v : V}
    (h : Inv o) (hk : lookupKey o.items k = some v)
    (hmark : mark ∈ keys o.order) :
    (listMoveBefore o.order k v mark).Perm o.order := by
  by_cases hkm : k = mark
  · simp [listMoveBefore, hkm]
  · have hmo : (k, v) ∈ o.order := mem_order_of_lookup h hk
    have hmark2 : mark ∈ keys (eraseKey o.order k) :=
      mem_keys_eraseKey_of_ne hmark (fun hc => hkm hc.symm)
    have p1 : (insertBeforeKey (eraseKey o.order k) mark (k, v)).Perm
        ((k, v) :: eraseKey o.order k) := insertBeforeKey_perm _ hmark2
    have p2 : o.order.Perm ((k, v) :: eraseKey o.order k) :=
      perm_cons_eraseKey (order_keys_nodup h) hmo
    simpa [listMoveBefore, hkm] using p1.trans p2.symm

theorem Inv_MoveAfter (o : OrderedMap K V) (k m : K) (h : Inv o) :
    Inv (recover o (MoveAfter o k m)) := by
  cases hl : lookupKey o.items k with
  | some v =>
    cases hm : lookupKey o.items m with
    | some w =>
      simp only [MoveAfter, hl, hm, recover]
      exact ⟨h.1.trans (listMoveAfter_perm h hl
        (mem_keys_order_of_lookup h hm)).symm, h.2⟩
    | none =>
      simp only [MoveAfter, hl, hm, recover]
      exact h
  | none =>
    simp only [MoveAfter, hl, recover]
    exact h

theorem Inv_MoveBefore (o : OrderedMap K V) (k m : K) (h : Inv o) :
    Inv (recover o (MoveBefore o k m)) := by
  cases hl : lookupKey o.items k with
  | some v =>
    cases hm : lookupKey o.items m with
    | some w =>
      simp only [MoveBefore, hl, hm, recover]
      exact ⟨h.1.trans (listMoveBefore_perm h hl
        (mem_keys_order_of_lookup h hm)).symm, h.2⟩
    | none =>
      simp only [MoveBefore, hl, hm, recover]
      exact h
  | none =>
    simp only [MoveBefore, hl, recover]
    exact h

theorem Inv_InsertAfter (o : OrderedMap K V) (k : K) (v : V) (m : K)
    (h : Inv o) : Inv (recover o (InsertAfter o k v m)) := by
  cases hm : lookupKey o.items m with
  | some mv =>
    cases hk : lookupKey o.items k with
    | some ev =>
      simp only [InsertAfter, hm, hk, recover]
      exact h
    | none =>
      by_cases hkm : k = m
      · simp only [InsertAfter, hm, hk, recover, if_pos hkm]
        exact h
      · simp only [InsertAfter, hm, hk, recover, if_neg hkm]
        have hknot : k ∉ keys o.order := fun hc =>
          (lookupKey_eq_none.mp hk) ((keys_perm h).mem_iff.mpr hc)
        have herase : eraseKey (o.order ++ [(k, v)]) k = o.order :=
          eraseKey_append_not_mem v hknot
        have hmv : listMoveAfter (o.order ++ [(k, v)]) k v m
            = insertAfterKey o.order m (k, v) := by
          simp [listMoveAfter, hkm, herase]
        have p1 : (insertAfterKey o.order m (k, v)).Perm ((k, v) :: o.order) :=
          insertAfterKey_perm _ (mem_keys_order_of_lookup h hm)
        have hins := Inv_insertKeyValuePair v h hk
        constructor
        · show (mapInsert o.items k v).Perm (listMoveAfter (o.order ++ [(k, v)]) k v m)
          rw [hmv]
          exact hins.1.trans ((List.perm_append_singleton _ _).trans p1.symm)
        · exact hins.2
  | none =>
    simp only [InsertAfter, hm, recover]
    exact h

theorem Inv_InsertBefore (o : OrderedMap K V) (k : K) (v : V) (m : K)
    (h : Inv o) : Inv (recover o (InsertBefore o k v m)) := by
  cases hm : lookupKey o.items m with
  | some mv =>
    cases hk : lookupKey o.items k with
    | some ev =>
      simp only [InsertBefore, hm, hk, recover]
      exact h
    | none =>
      by_cases hkm : k = m
      · simp only [InsertBefore, hm, hk, recover, if_pos hkm]
        exact h
      · simp only [InsertBefore, hm, hk, recover, if_neg hkm]
        have hknot : k ∉ keys o.order := fun hc =>
          (lookupKey_eq_none.mp hk) ((keys_perm h).mem_iff.mpr hc)
        have herase : eraseKey (o.order ++ [(k, v)]) k = o.order :=
          eraseKey_append_not_mem v hknot
        have hmv : listMoveBefore (o.order ++ [(k, v)]) k v m
            = insertBeforeKey o.order m (k, v) := by
          simp [listMoveBefore, hkm, herase]
        have p1 : (insertBeforeKey o.order m (k, v)).Perm ((k, v) :: o.order) :=
          insertBeforeKey_perm _ (mem_keys_order_of_lookup h hm)
        have hins := Inv_insertKeyValuePair v h hk
        constructor
        · show (mapInsert o.items k v).Perm (listMoveBefore (o.order ++ [(k, v)]) k v m)
          rw [hmv]
          exact hins.1.trans ((List.perm_append_singleton _ _).trans p1.symm)
        · exact hins.2
  | none =>
    simp only [InsertBefore, hm, recover]
    exact h

theorem Inv_applyOp (o : OrderedMap K V) (op : Op K V) (h : Inv o) :
    Inv (applyOp o op) := by
  cases op with
  | set k v => exact Inv_Set o k v h
  | remove k => exact Inv_Remove o k h
  | moveToFront k => exact Inv_MoveToFront o k h
  | moveToBack k => exact Inv_MoveToBack o k h
  | moveAfter k m => exact Inv_MoveAfter o k m h
  | moveBefore k m => exact Inv_MoveBefore o k m h
  | insertAfter k v m => exact Inv_InsertAfter o k v m h
  | insertBefore k v m => exact Inv_InsertBefore o k v m h

theorem Inv_applyOps (ops : List (Op K V)) (o : OrderedMap K V) (h : Inv o) :
    Inv (applyOps o ops) := by
  induction ops generalizing o with
  | nil => exact h
  | cons op rest ih => exact ih _ (Inv_applyOp o op h)

/-! ### Support lemmas for the remaining contracts -/

theorem drain_eq (l : List (K × V)) : drain l = l := by
  induction l with
  | nil => rfl
  | cons p rest ih => simp [drain, ih]

theorem NextN_nil (n : Nat) : NextN n ([] : List (K × V)) = (none, []) := by
  induction n with
  | zero => rfl
  | succ n ih => simpa [NextN, Next] using ih

theorem NextN_length (l : List (K × V)) : NextN l.length l = (none, []) := by
  induction l with
  | nil => rfl
  | cons p rest ih => simpa [NextN, Next] using ih

theorem filter_key_ne_of_not_mem {l : List (K × V)} {k : K}
    (h : k ∉ keys l) : l.filter (fun p => !decide (p.1 = k)) = l := by
  refine List.filter_eq_self.mpr (fun p hp => ?_)
  have : p.1 ≠ k := fun hc => h (hc ▸ List.mem_map.mpr ⟨p, hp, rfl⟩)
  simp [this]

theorem eraseKey_eq_filter {l : List (K × V)} (hnd : (keys l).Nodup) (k : K) :
    eraseKey l k = l.filter (fun p => decide (p.1 ≠ k)) := by
  simp only [decide_not]
  induction l with
  | nil => rfl
  | cons p rest ih =>
    simp only [keys, List.map_cons, List.nodup_cons] at hnd
    by_cases hp : p.1 = k
    · have hrest : k ∉ keys rest := hp ▸ hnd.1
      simp [eraseKey, hp, List.filter_cons, filter_key_ne_of_not_mem hrest]
    · simp [eraseKey, hp, List.filter_cons, ih hnd.2]

theorem lookupKey_eraseKey_self {l : List (K × V)} {k : K}
    (hnd : (keys l).Nodup) : lookupKey (eraseKey l k) k = none := by
  induction l with
  | nil => rfl
  | cons p rest ih =>
    simp only [keys, List.map_cons, List.nodup_cons] at hnd
    by_cases hp : p.1 = k
    · simp only [eraseKey, hp, if_true]
      exact lookupKey_eq_none.mpr (hp ▸ hnd.1)
    · simp only [eraseKey, hp, if_false, lookupKey]
      simpa [hp] using ih hnd.2

theorem lookupKey_eraseKey_ne {l : List (K × V)} {k k2 : K}
    (h : k2 ≠ k) : lookupKey (eraseKey l k) k2 = lookupKey l k2 := by
  induction l with
  | nil => rfl
  | cons p rest ih =>
    by_cases hp : p.1 = k
    · have : p.1 ≠ k2 := fun hc => h (hc ▸ hp ▸ rfl)
      simp [eraseKey, hp, lookupKey, this, Ne.symm h]
    · by_cases hp2 : p.1 = k2 <;>
        simp [eraseKey, hp, lookupKey, hp2, ih, h, Ne.symm h]

theorem equalWalk_eq_decide [DecidableEq V] (a b : List (K × V)) :
    equalWalk a b = decide (a = b) := by
  induction a generalizing b with
  | nil => cases b <;> simp [equalWalk]
  | cons p ps ih =>
    cases b with
    | nil => simp [equalWalk]
    | cons q qs =>
      by_cases h1 : p.1 = q.1 <;> by_cases h2 : p.2 = q.2 <;>
        simp [equalWalk, h1, h2, ih, Prod.ext_iff]

/-! ### Claim theorems -/

/-- C1: the claim says an `InsertAfter`/`InsertBefore` call whose mark key is
absent fails with a `KeyNotFound` error identifying the absent mark key.  The
map is indeed left unchanged, but the code builds the error from the key being
inserted instead of the absent mark: on the map `{a ↦ 1}`, inserting `b`
relative to the absent mark `c` yields `KeyNotFound b`, not `KeyNotFound c`. -/
theorem insert_absent_mark_error_names_inserted_key :
    InsertAfter (Set (New : OrderedMap String String) "a" "1") "b" "2" "c"
      = Except.error (MapError.keyNotFound "b") ∧
    InsertBefore (Set (New : OrderedMap String String) "a" "1") "b" "2" "c"
      = Except.error (MapError.keyNotFound "b") ∧
    applyOp (Set (New : OrderedMap String String) "a" "1")
        (Op.insertAfter "b" "2" "c") = Set (New : OrderedMap String String) "a" "1" ∧
    applyOp (Set (New : OrderedMap String String) "a" "1")
        (Op.insertBefore "b" "2" "c") = Set (New : OrderedMap String String) "a" "1" ∧
    MapError.keyNotFound (K := String) (V := String) "b"
      ≠ MapError.keyNotFound "c" := by
  refine ⟨rfl, rfl, rfl, rfl, by decide⟩

/-- C2: the claim says `Equal` returns `true` when both maps are absent.  The
code's nil check only handles the two one-sided cases; when both arguments are
nil it proceeds to `x.order.Len()` and dereferences the nil pointer — a panic,
modelled as `none`.  The one-sided half of the claim does hold. -/
theorem equal_nil_pair_panics {K V : Type} [DecidableEq K] [DecidableEq V] :
    Equal (none : Option (OrderedMap K V)) none = none ∧
    (∀ x : OrderedMap K V,
      Equal (some x) none = some false ∧ Equal none (some x) = some false) :=
  ⟨rfl, fun _ => ⟨rfl, rfl⟩⟩

/-- C3: for every sequence of public operations starting from the empty map,
the set of keys stored in the lookup index equals the set of keys obtained by
walking the order sequence front-to-back, and neither side contains a
duplicate key. -/
theorem bijection_invariant_all_histories (ops : List (Op K V)) :
    (keys (applyOps New ops).items).Nodup ∧
    (keys (applyOps New ops).order).Nodup ∧
    (∀ k, k ∈ keys (applyOps New ops).items ↔ k ∈ keys (applyOps New ops).order) := by
  have h := Inv_applyOps ops New Inv_New
  exact ⟨h.2, order_keys_nodup h, fun _ => (keys_perm h).mem_iff⟩

/-- C4: `InsertAfter(k, v, mark)` (and `InsertBefore`) on a map already
containing `k` with stored value `ev` and containing the mark returns a
`DuplicateKeyValue` error reporting the pre-existing pair `(k, ev)`, and the
map state after the call is identical to the state before it. -/
theorem insert_existing_key_rejected_duplicate (o : OrderedMap K V)
    (k : K) (v : V) (mark : K) (ev mv : V)
    (hmark : lookupKey o.items mark = some mv)
    (hk : lookupKey o.items k = some ev) :
    InsertAfter o k v mark = Except.error (MapError.duplicateKeyValue k ev) ∧
    InsertBefore o k v mark = Except.error (MapError.duplicateKeyValue k ev) ∧
    applyOp o (Op.insertAfter k v mark) = o ∧
    applyOp o (Op.insertBefore k v mark) = o := by
  simp [InsertAfter, InsertBefore, applyOp, recover, hmark, hk]

/-- Witness for C4 on the map `{a ↦ 1, b ↦ 2}`: inserting the existing key
`b` after `a` reports the stored pair `(b, 2)` and changes nothing. -/
theorem insert_existing_key_rejected_duplicate_witness :
    InsertAfter (⟨[("a", "1"), ("b", "2")], [("a", "1"), ("b", "2")]⟩ :
        OrderedMap String String) "b" "9" "a"
      = Except.error (MapError.duplicateKeyValue "b" "2") ∧
    InsertBefore (⟨[("a", "1"), ("b", "2")], [("a", "1"), ("b", "2")]⟩ :
        OrderedMap String String) "b" "9" "a"
      = Except.error (MapError.duplicateKeyValue "b" "2") ∧
    applyOp (⟨[("a", "1"), ("b", "2")], [("a", "1"), ("b", "2")]⟩ :
        OrderedMap String String) (Op.insertAfter "b" "9" "a")
      = ⟨[("a", "1"), ("b", "2")], [("a", "1"), ("b", "2")]⟩ ∧
    applyOp (⟨[("a", "1"), ("b", "2")], [("a", "1"), ("b", "2")]⟩ :
        OrderedMap String String) (Op.insertBefore "b" "9" "a")
      = ⟨[("a", "1"), ("b", "2")], [("a", "1"), ("b", "2")]⟩ :=
  insert_existing_key_rejected_duplicate _ "b" "9" "a" "2" "1" rfl rfl

/-- C5: from the empty map, `Set(first,1st)`, `Set(second,2nd)`,
`Set(fourth,4th)`, `Set(fifth,5th)` and then `InsertAfter(third,3rd,second)`
succeeds and the resulting key order is
`[first, second, third, fourth, fifth]`. -/
theorem scenario_set_four_insert_third :
    (InsertAfter
        (Set (Set (Set (Set (New : OrderedMap String String)
          "first" "1st") "second" "2nd") "fourth" "4th") "fifth" "5th")
        "third" "3rd" "second").map Keys
      = Except.ok ["first", "second", "third", "fourth", "fifth"] := rfl

/-- C6: on a map satisfying the consistency invariant, `MoveToFront(k)` (resp.
`MoveToBack(k)`) on a present key succeeds and relocates `k`'s entry to the
front (resp. back) while leaving the index and the multiset of stored entries
unchanged; on an absent key it fails with `KeyNotFound k` leaving the map
unchanged; and when `k` is already frontmost (resp. backmost) the call
succeeds returning the map state completely unchanged. -/
theorem move_to_front_back_contract (o : OrderedMap K V) (k : K) (h : Inv o) :
    (∀ v, lookupKey o.items k = some v →
      ∃ o2, MoveToFront o k = Except.ok o2 ∧ o2.items = o.items ∧
        o2.order.Perm o.order ∧ o2.order.head? = some (k, v)) ∧
    (∀ v, lookupKey o.items k = some v →
      ∃ o2, MoveToBack o k = Except.ok o2 ∧ o2.items = o.items ∧
        o2.order.Perm o.order ∧ o2.order.getLast? = some (k, v)) ∧
    (lookupKey o.items k = none →
      MoveToFront o k = Except.error (MapError.keyNotFound k) ∧
      MoveToBack o k = Except.error (MapError.keyNotFound k) ∧
      applyOp o (Op.moveToFront k) = o ∧
      applyOp o (Op.moveToBack k) = o) ∧
    (∀ v, o.order.head? = some (k, v) → MoveToFront o k = Except.ok o) ∧
    (∀ v, o.order.getLast? = some (k, v) → MoveToBack o k = Except.ok o) := by
  refine ⟨?_, ?_, ?_, ?_, ?_⟩
  · intro v hv
    refine ⟨⟨o.items, (k, v) :: eraseKey o.order k⟩, ?_, rfl, ?_, rfl⟩
    · simp [MoveToFront, hv]
    · exact (perm_cons_eraseKey (order_keys_nodup h) (mem_order_of_lookup h hv)).symm
  · intro v hv
    refine ⟨⟨o.items, eraseKey o.order k ++ [(k, v)]⟩, ?_, rfl, ?_, ?_⟩
    · simp [MoveToBack, hv]
    · exact (List.perm_append_singleton _ _).trans
        (perm_cons_eraseKey (order_keys_nodup h) (mem_order_of_lookup h hv)).symm
    · exact List.getLast?_concat _
  · intro hv
    simp [MoveToFront, MoveToBack, applyOp, recover, hv]
  · intro v hv
    obtain ⟨its, ord⟩ := o
    cases ord with
    | nil => simp at hv
    | cons p rest =>
      simp only [List.head?_cons, Option.some.injEq] at hv
      subst hv
      have hl : lookupKey its k = some v :=
        lookup_of_mem_order h (List.mem_cons_self _ _)
      simp [MoveToFront, hl, eraseKey]
  · intro v hv
    obtain ⟨its, ord⟩ := o
    rcases List.eq_nil_or_concat ord with hnil | ⟨init, b, hord⟩
    · subst hnil
      simp at hv
    · rw [List.concat_eq_append] at hord
      subst hord
      rw [List.getLast?_concat] at hv
      simp only [Option.some.injEq] at hv
      subst hv
      have hkinit : k ∉ keys init := by
        have hnd : (keys (init ++ [(k, v)])).Nodup := order_keys_nodup h
        have hsplit : keys (init ++ [(k, v)]) = keys init ++ [k] := by
          simp [keys]
        rw [hsplit] at hnd
        have := (List.perm_append_singleton k (keys init)).nodup_iff.mp hnd
        exact (List.nodup_cons.mp this).1
      have hl : lookupKey its k = some v :=
        lookup_of_mem_order h (List.mem_append_right _ (List.mem_cons_self _ _))
      simp [MoveToBack, hl, eraseKey_append_not_mem v hkinit]

/-- Witness for C6 on the map `{a ↦ 1, b ↦ 2}` with key `b`. -/
theorem move_to_front_back_contract_witness :
    (∀ v, lookupKey (⟨[("a", 1), ("b", 2)], [("a", 1), ("b", 2)]⟩ :
        OrderedMap String Nat).items "b" = some v →
      ∃ o2, MoveToFront (⟨[("a", 1), ("b", 2)], [("a", 1), ("b", 2)]⟩ :
          OrderedMap String Nat) "b" = Except.ok o2 ∧
        o2.items = [("a", 1), ("b", 2)] ∧
        o2.order.Perm [("a", 1), ("b", 2)] ∧ o2.order.head? = some ("b", v)) ∧
    (∀ v, lookupKey (⟨[("a", 1), ("b", 2)], [("a", 1), ("b", 2)]⟩ :
        OrderedMap String Nat).items "b" = some v →
      ∃ o2, MoveToBack (⟨[("a", 1), ("b", 2)], [("a", 1), ("b", 2)]⟩ :
          OrderedMap String Nat) "b" = Except.ok o2 ∧
        o2.items = [("a", 1), ("b", 2)] ∧
        o2.order.Perm [("a", 1), ("b", 2)] ∧ o2.order.getLast? = some ("b", v)) ∧
    (lookupKey (⟨[("a", 1), ("b", 2)], [("a", 1), ("b", 2)]⟩ :
        OrderedMap String Nat).items "b" = none →
      MoveToFront (⟨[("a", 1), ("b", 2)], [("a", 1), ("b", 2)]⟩ :
          OrderedMap String Nat) "b" = Except.error (MapError.keyNotFound "b") ∧
      MoveToBack (⟨[("a", 1), ("b", 2)], [("a", 1), ("b", 2)]⟩ :
          OrderedMap String Nat) "b" = Except.error (MapError.keyNotFound "b") ∧
      applyOp (⟨[("a", 1), ("b", 2)], [("a", 1), ("b", 2)]⟩ :
          OrderedMap String Nat) (Op.moveToFront "b")
        = ⟨[("a", 1), ("b", 2)], [("a", 1), ("b", 2)]⟩ ∧
      applyOp (⟨[("a", 1), ("b", 2)], [("a", 1), ("b", 2)]⟩ :
          OrderedMap String Nat) (Op.moveToBack "b")
        = ⟨[("a", 1), ("b", 2)], [("a", 1), ("b", 2)]⟩) ∧
    (∀ v, (⟨[("a", 1), ("b", 2)], [("a", 1), ("b", 2)]⟩ :
        OrderedMap String Nat).order.head? = some ("b", v) →
      MoveToFront (⟨[("a", 1), ("b", 2)], [("a", 1), ("b", 2)]⟩ :
          OrderedMap String Nat) "b"
        = Except.ok ⟨[("a", 1), ("b", 2)], [("a", 1), ("b", 2)]⟩) ∧
    (∀ v, (⟨[("a", 1), ("b", 2)], [("a", 1), ("b", 2)]⟩ :
        OrderedMap String Nat).order.getLast? = some ("b", v) →
      MoveToBack (⟨[("a", 1), ("b", 2)], [("a", 1), ("b", 2)]⟩ :
          OrderedMap String Nat) "b"
        = Except.ok ⟨[("a", 1), ("b", 2)], [("a", 1), ("b", 2)]⟩) :=
  move_to_front_back_contract
    (⟨[("a", 1), ("b", 2)], [("a", 1), ("b", 2)]⟩ : OrderedMap String Nat)
    "b" (by decide)

/-- C7: `Set(k, v)` on a map where `k` is present overwrites `k`'s stored
value with `v`, keeps the whole key sequence of the order (hence `k`'s
position relative to every other key) and the entry count unchanged, leaves
every other key's stored value untouched, and leaves the entry at every
position whose key is not `k` exactly as it was. -/
theorem set_existing_key_updates_in_place (o : OrderedMap K V) (k : K)
    (v v0 : V) (h : lookupKey o.items k = some v0) :
    keys (Set o k v).items = keys o.items ∧
    keys (Set o k v).order = keys o.order ∧
    (Set o k v).order.length = o.order.length ∧
    Get (Set o k v) k = some v ∧
    (∀ k2, k2 ≠ k → Get (Set o k v) k2 = Get o k2) ∧
    (∀ (i : Nat) (p : K × V), o.order[i]? = some p → p.1 ≠ k →
      (Set o k v).order[i]? = some p) := by
  simp only [Set, h]
  refine ⟨keys_updateValue _ _ _, keys_updateValue _ _ _,
    by simp [updateValue], ?_, ?_, ?_⟩
  · show lookupKey (updateValue o.items k v) k = some v
    exact lookupKey_updateValue_self v (by simp [h])
  · intro k2 hne
    show lookupKey (updateValue o.items k v) k2 = lookupKey o.items k2
    exact lookupKey_updateValue_ne v hne
  · intro i p hp hne
    show (updateValue o.order k v)[i]? = some p
    rw [updateValue, List.getElem?_map, hp]
    simp [hne]

/-- Witness for C7 on the map `{a ↦ 1, b ↦ 2}`, overwriting `a` with `7`. -/
theorem set_existing_key_updates_in_place_witness :
    keys (Set (⟨[("a", 1), ("b", 2)], [("a", 1), ("b", 2)]⟩ :
        OrderedMap String Nat) "a" 7).items
      = keys ([("a", 1), ("b", 2)] : List (String × Nat)) ∧
    keys (Set (⟨[("a", 1), ("b", 2)], [("a", 1), ("b", 2)]⟩ :
        OrderedMap String Nat) "a" 7).order
      = keys ([("a", 1), ("b", 2)] : List (String × Nat)) ∧
    (Set (⟨[("a", 1), ("b", 2)], [("a", 1), ("b", 2)]⟩ :
        OrderedMap String Nat) "a" 7).order.length
      = ([("a", 1), ("b", 2)] : List (String × Nat)).length ∧
    Get (Set (⟨[("a", 1), ("b", 2)], [("a", 1), ("b", 2)]⟩ :
        OrderedMap String Nat) "a" 7) "a" = some 7 ∧
    (∀ k2, k2 ≠ "a" →
      Get (Set (⟨[("a", 1), ("b", 2)], [("a", 1), ("b", 2)]⟩ :
          OrderedMap String Nat) "a" 7) k2
        = Get (⟨[("a", 1), ("b", 2)], [("a", 1), ("b", 2)]⟩ :
            OrderedMap String Nat) k2) ∧
    (∀ (i : Nat) (p : String × Nat),
      ([("a", 1), ("b", 2)] : List (String × Nat))[i]? = some p →
      p.1 ≠ "a" →
      (Set (⟨[("a", 1), ("b", 2)], [("a", 1), ("b", 2)]⟩ :
          OrderedMap String Nat) "a" 7).order[i]? = some p) :=
  set_existing_key_updates_in_place
    (⟨[("a", 1), ("b", 2)], [("a", 1), ("b", 2)]⟩ : OrderedMap String Nat)
    "a" 7 1 rfl

/-- C8: `Remove(k)` on an absent key returns the absent-marker with the map
completely unchanged; on a present key it returns the stored pair `(k, v)`,
removes exactly that one entry from both the index and the order (every other
entry survives, in the same relative order), and leaves every other key's
lookup result unchanged. -/
theorem remove_contract (o : OrderedMap K V) (k : K) (h : Inv o) :
    (lookupKey o.items k = none → Remove o k = (none, o)) ∧
    (∀ v, lookupKey o.items k = some v →
      (Remove o k).1 = some (k, v) ∧
      (Remove o k).2.items = o.items.filter (fun p => decide (p.1 ≠ k)) ∧
      (Remove o k).2.order = o.order.filter (fun p => decide (p.1 ≠ k)) ∧
      o.order.Perm ((k, v) :: (Remove o k).2.order) ∧
      o.items.Perm ((k, v) :: (Remove o k).2.items) ∧
      Get (Remove o k).2 k = none ∧
      (∀ k2, k2 ≠ k → Get (Remove o k).2 k2 = Get o k2)) := by
  constructor
  · intro hv
    simp [Remove, hv]
  · intro v hv
    have h1 : Remove o k
        = (some (k, v), ⟨eraseKey o.items k, eraseKey o.order k⟩) := by
      simp [Remove, hv]
    rw [h1]
    refine ⟨rfl, ?_, ?_, ?_, ?_, ?_, ?_⟩
    · exact eraseKey_eq_filter h.2 k
    · exact eraseKey_eq_filter (order_keys_nodup h) k
    · exact perm_cons_eraseKey (order_keys_nodup h) (mem_order_of_lookup h hv)
    · exact perm_cons_eraseKey h.2 (mem_of_lookupKey_eq_some hv)
    · show lookupKey (eraseKey o.items k) k = none
      exact lookupKey_eraseKey_self h.2
    · intro k2 hne
      show lookupKey (eraseKey o.items k) k2 = lookupKey o.items k2
      exact lookupKey_eraseKey_ne hne

/-- Witness for C8 on the map `{a ↦ 1, b ↦ 2}` with key `a`. -/
theorem remove_contract_witness :
    (lookupKey ([("a", 1), ("b", 2)] : List (String × Nat)) "a" = none →
      Remove (⟨[("a", 1), ("b", 2)], [("a", 1), ("b", 2)]⟩ :
          OrderedMap String Nat) "a"
        = (none, ⟨[("a", 1), ("b", 2)], [("a", 1), ("b", 2)]⟩)) ∧
    (∀ v, lookupKey ([("a", 1), ("b", 2)] : List (String × Nat)) "a" = some v →
      (Remove (⟨[("a", 1), ("b", 2)], [("a", 1), ("b", 2)]⟩ :
          OrderedMap String Nat) "a").1 = some ("a", v) ∧
      (Remove (⟨[("a", 1), ("b", 2)], [("a", 1), ("b", 2)]⟩ :
          OrderedMap String Nat) "a").2.items
        = ([("a", 1), ("b", 2)] : List (String × Nat)).filter
            (fun p => decide (p.1 ≠ "a")) ∧
      (Remove (⟨[("a", 1), ("b", 2)], [("a", 1), ("b", 2)]⟩ :
          OrderedMap String Nat) "a").2.order
        = ([("a", 1), ("b", 2)] : List (String × Nat)).filter
            (fun p => decide (p.1 ≠ "a")) ∧
      ([("a", 1), ("b", 2)] : List (String × Nat)).Perm
        (("a", v) :: (Remove (⟨[("a", 1), ("b", 2)], [("a", 1), ("b", 2)]⟩ :
          OrderedMap String Nat) "a").2.order) ∧
      ([("a", 1), ("b", 2)] : List (String × Nat)).Perm
        (("a", v) :: (Remove (⟨[("a", 1), ("b", 2)], [("a", 1), ("b", 2)]⟩ :
          OrderedMap String Nat) "a").2.items) ∧
      Get (Remove (⟨[("a", 1), ("b", 2)], [("a", 1), ("b", 2)]⟩ :
          OrderedMap String Nat) "a").2 "a" = none ∧
      (∀ k2, k2 ≠ "a" →
        Get (Remove (⟨[("a", 1), ("b", 2)], [("a", 1), ("b", 2)]⟩ :
            OrderedMap String Nat) "a").2 k2
          = Get (⟨[("a", 1), ("b", 2)], [("a", 1), ("b", 2)]⟩ :
              OrderedMap String Nat) k2)) :=
  remove_contract
    (⟨[("a", 1), ("b", 2)], [("a", 1), ("b", 2)]⟩ : OrderedMap String Nat)
    "a" (by decide)

/-- C9: on two present maps, `Equal` returns `true` exactly when the two
order sequences agree position by position on both keys and values (same
length included), i.e. when the sequences are equal as lists; it returns
`false` exactly otherwise, so maps holding the same pairs in different
orders compare unequal. -/
theorem equal_present_order_sensitive [DecidableEq V] (x y : OrderedMap K V) :
    (Equal (some x) (some y) = some true ↔ x.order = y.order) ∧
    (Equal (some x) (some y) = some false ↔ x.order ≠ y.order) := by
  have key : Equal (some x) (some y) = some (decide (x.order = y.order)) := by
    simp only [Equal]
    by_cases hl : x.order.length = y.order.length
    · simp [hl, equalWalk_eq_decide]
    · have hne : x.order ≠ y.order := fun hc => hl (by rw [hc])
      simp [hl, hne]
  rw [key]
  constructor <;> simp

/-- Witness for C9: the maps `{a ↦ 1, b ↦ 2}` and `{b ↦ 2, a ↦ 1}` (same
pairs, different order). -/
theorem equal_present_order_sensitive_witness :
    (Equal (some (⟨[("a", 1), ("b", 2)], [("a", 1), ("b", 2)]⟩ :
          OrderedMap String Nat))
        (some ⟨[("b", 2), ("a", 1)], [("b", 2), ("a", 1)]⟩) = some true
      ↔ ([("a", 1), ("b", 2)] : List (String × Nat)) = [("b", 2), ("a", 1)]) ∧
    (Equal (some (⟨[("a", 1), ("b", 2)], [("a", 1), ("b", 2)]⟩ :
          OrderedMap String Nat))
        (some ⟨[("b", 2), ("a", 1)], [("b", 2), ("a", 1)]⟩) = some false
      ↔ ([("a", 1), ("b", 2)] : List (String × Nat)) ≠ [("b", 2), ("a", 1)]) :=
  equal_present_order_sensitive _ _

/-- C10: the iterator yields exactly the map's entries front to back and then
the absent-marker: draining the cursor returns the order sequence; the call
made after the last entry (the `length`-indexed call) yields the
absent-marker; on an empty order the very first `Next` already yields it; and
once `Next` has yielded the absent-marker, every further call on that cursor
yields the absent-marker again instead of failing. -/
theorem iterator_next_contract (o : OrderedMap K V) :
    drain (Iterator o) = o.order ∧
    (o.order = [] → Next (Iterator o) = (none, [])) ∧
    NextN o.order.length (Iterator o) = (none, []) ∧
    (∀ s : List (K × V), (Next s).1 = none → ∀ n, (NextN n s).1 = none) := by
  refine ⟨drain_eq _, ?_, ?_, ?_⟩
  · intro hv
    simp [Iterator, hv, Next]
  · simpa [Iterator] using NextN_length o.order
  · intro s hs n
    cases s with
    | cons p rest => simp [Next] at hs
    | nil => simp [NextN_nil]

/-- Witness for C10 on the one-entry map `{a ↦ 1}`. -/
theorem iterator_next_contract_witness :
    drain (Iterator (⟨[("a", 1)], [("a", 1)]⟩ : OrderedMap String Nat))
      = [("a", 1)] ∧
    (([("a", 1)] : List (String × Nat)) = [] →
      Next (Iterator (⟨[("a", 1)], [("a", 1)]⟩ : OrderedMap String Nat))
        = (none, [])) ∧
    NextN ([("a", 1)] : List (String × Nat)).length
        (Iterator (⟨[("a", 1)], [("a", 1)]⟩ : OrderedMap String Nat))
      = (none, []) ∧
    (∀ s : List (String × Nat), (Next s).1 = none →
      ∀ n, (NextN n s).1 = none) :=
  iterator_next_contract (⟨[("a", 1)], [("a", 1)]⟩ : OrderedMap String Nat)

end orderedmap
